/-
Shallow embedding of the periodicity estimators of the `tsanalyzer`
repository (src/tsanalyzer/periodicity/{acf,fft,lomb,wavelet}.py).

Conventions of the embedding:
* floating-point sample values are modelled as rationals (`ℚ`); for the
  wavelet component, whose Haar filters contain `1/√2`, values live in the
  ring `ℚ[√2]` (`Q2` below), so all arithmetic is exact and decidable;
* `np.argmax` is `argmaxIdx`, the first index attaining the maximum;
* calls into external numeric libraries (scipy FFT magnitudes, the
  scipy Lomb-Scargle power vector, the statsmodels confidence-interval
  half-widths) are parameters of the embedded functions, since those
  libraries are not part of the repository; everything the repository
  itself computes (centering, normalisation, slicing, peak selection,
  thresholding, the Haar multiresolution pyramid) is embedded directly;
* Python exceptions are `Except` errors.
-/

import Mathlib

/-! ## Generic first-occurrence argmax (np.argmax) -/

/-- Fold tracking the best index so far: the index is replaced only when a
strictly greater value appears, so the first occurrence of the maximum wins,
exactly as `np.argmax` behaves. -/
def argmaxAux {α : Type} (lt : α → α → Bool) : ℕ → α → ℕ → List α → ℕ
  | bi, _, _, [] => bi
  | bi, bv, i, v :: t => if lt bv v then argmaxAux lt i v (i+1) t else argmaxAux lt bi bv (i+1) t

/-- `np.argmax`: index of the first occurrence of the maximum, `none` on an
empty array (where NumPy raises `ValueError`). -/
def argmaxIdx {α : Type} (lt : α → α → Bool) : List α → Option ℕ
  | [] => none
  | x :: t => some (argmaxAux lt 0 x 1 t)

/-- Comparison used by `np.argmax` on rational-valued arrays. -/
def ratLt (x y : ℚ) : Bool := decide (x < y)

/-! ## ACFAnalyzer (src/tsanalyzer/periodicity/acf.py)

`compute` calls `statsmodels.tsa.stattools.acf(series, nlags, alpha, adjusted=False, fft=True)`.
With those arguments statsmodels returns
`acf[k] = avf[k] / avf[0]` for `k = 0..nlags`, where
`avf[k] = (1/n) * Σ_t (x_t - mean)(x_{t+k} - mean)` (the `fft=True` path is an
exact reformulation of the same sums), and
`confint[k] = acf[k] ± z_{1-α/2}·sqrt(varacf[k]/n)`: the interval is centred
at the ACF value itself.  The half-widths `z·sqrt(varacf[k]/n)` are
irrational; they enter the embedding as a nonnegative parameter list `iv`. -/

def seriesMean (s : List ℚ) : ℚ := s.sum / s.length

def seriesCentered (s : List ℚ) : List ℚ := s.map (fun x => x - seriesMean s)

/-- `avf[k]`: autocovariance at lag `k`, divisor `n` (`adjusted=False`). -/
def acfAcov (s : List ℚ) (k : ℕ) : ℚ :=
  (List.zipWith (fun a b => a * b) (seriesCentered s) ((seriesCentered s).drop k)).sum
    / s.length

/-- `acf_vals`: the array returned by `statsmodels.acf`, lags `0..L`. -/
def acfVals (s : List ℚ) (L : ℕ) : List ℚ :=
  (List.range (L+1)).map (fun k => acfAcov s k / acfAcov s 0)

/-- `peak_lag = int(np.argmax(acf_vals[1:]) + 1)` (line 132). -/
def acfPeakLag (s : List ℚ) (L : ℕ) : Option ℕ :=
  (argmaxIdx ratLt ((acfVals s L).drop 1)).map (fun i => i + 1)

/-- `scipy.signal.find_peaks` on an array: interior indices whose value is
strictly greater than both neighbours.  (For flat plateaus scipy reports the
plateau midpoint; the distinction cannot matter here, since the significance
filter applied afterwards rejects every candidate.) -/
def findPeaksIdx (l : List ℚ) : List ℕ :=
  (List.range l.length).filter
    (fun p => decide (1 ≤ p) && decide (p + 1 < l.length)
      && ratLt (l.getD (p-1) 0) (l.getD p 0) && ratLt (l.getD (p+1) 0) (l.getD p 0))

/-- `multi_peaks` (lines 135-147): scan `acf_vals[1:]` for local maxima and
keep `(lag, val)` when `val > upper[lag]`, where `upper = confint[:, 1]`,
i.e. `upper[k] = acf_vals[k] + iv[k]` with `iv[k] ≥ 0` the statsmodels
confidence half-width at lag `k`. -/
def acfMultiPeaks (s : List ℚ) (L : ℕ) (iv : List ℚ) : List (ℕ × ℚ) :=
  let av := acfVals s L
  let acfNonzero := av.drop 1
  (findPeaksIdx acfNonzero).filterMap
    (fun p =>
      let lag := p + 1
      let val := acfNonzero.getD p 0
      if av.getD lag 0 + iv.getD lag 0 < val then some (lag, val) else none)

/-! ## FFTAnalyzer (src/tsanalyzer/periodicity/fft.py)

`compute` (lines 45-57): center the series, take `np.abs(scipy.fft.fft(x))`,
normalise by `n`, keep the first `n // 2` bins, and select
`np.argmax(amps[1:]) + 1`.  The DFT magnitudes themselves are produced by
scipy, which is external to the repository, so they enter the embedding as
the parameter `mags` (with `mags.length = len(series) = n`); every step the
repository performs afterwards is embedded directly.  `fftfreq(n, d=1/fs)`
raises `ZeroDivisionError` when `fs = 0`; `np.argmax` of an empty slice
raises `ValueError`. -/

inductive FFTErr where
  | zeroDivision : FFTErr
  | emptyArgmax : FFTErr
deriving DecidableEq

structure FFTResult where
  peakFreq : ℚ
  period : Option ℚ
  strength : ℚ
  freqs : List ℚ
  amps : List ℚ
deriving DecidableEq

def fftCompute (mags : List ℚ) (fs : ℚ) : Except FFTErr FFTResult :=
  let n := mags.length
  let normY := mags.map (fun v => v / (n : ℚ))
  let halfN := n / 2
  if fs = 0 then .error .zeroDivision
  else
    let freqs := (List.range halfN).map (fun k : ℕ => (k : ℚ) * fs / (n : ℚ))
    let amps := normY.take halfN
    match argmaxIdx ratLt (amps.drop 1) with
    | none => .error .emptyArgmax
    | some i =>
        let peakIndex := i + 1
        let pf := freqs.getD peakIndex 0
        .ok { peakFreq := pf
              period := if pf ≠ 0 then some (1 / pf) else none
              strength := amps.getD peakIndex 0
              freqs := freqs
              amps := amps }

/-! ## LombScargleAnalyzer (src/tsanalyzer/periodicity/lomb.py)

`__init__` stores `t` and the mean-centred `y`; `compute` builds
`np.linspace(min_freq, max_freq, resolution)`, calls
`scipy.signal.lombscargle(t, y, 2π·freqs)` — which raises a `ValueError`
when `t` and `y` differ in shape, and otherwise returns one power value per
grid frequency — and then takes the global `np.argmax` of the power array.
The power values involve transcendental trigonometric sums, so they enter
the embedding as the parameter `power` with `power.length = resolution`;
everything the repository computes (the grid, the validation-free control
flow, the peak selection, the period rule `1/f` guarded by `f > 0`) is
embedded directly. -/

inductive LombErr where
  | shapeMismatch : LombErr
  | emptyArgmax : LombErr
deriving DecidableEq

structure LombResult where
  peakFreq : ℚ
  period : Option ℚ
  freqs : List ℚ
  power : List ℚ
deriving DecidableEq

/-- `np.linspace(a, b, r)`. -/
def lombLinspace (a b : ℚ) (r : ℕ) : List ℚ :=
  if r = 0 then []
  else if r = 1 then [a]
  else (List.range r).map (fun i : ℕ => a + (i : ℚ) * (b - a) / ((r : ℚ) - 1))

def lombCompute (t y : List ℚ) (minFreq maxFreq : ℚ) (resolution : ℕ)
    (power : List ℚ) : Except LombErr LombResult :=
  let freqs := lombLinspace minFreq maxFreq resolution
  if t.length ≠ y.length then .error .shapeMismatch
  else
    match argmaxIdx ratLt power with
    | none => .error .emptyArgmax
    | some i =>
        let pf := freqs.getD i 0
        .ok { peakFreq := pf
              period := if 0 < pf then some (1 / pf) else none
              freqs := freqs
              power := power }

/-! ## WaveletAnalyzer (src/tsanalyzer/periodicity/wavelet.py)

`compute` delegates the multiresolution pyramid to `pywt.wavedec`, and
`reconstruct` to `pywt.waverec`.  The embedding instantiates the analyzer at
the Haar basis in `periodization` mode, whose filter coefficient is `1/√2`,
so sample values live in the ring `ℚ[√2]` and every step is exact:

* `pywt.dwt` (Haar, periodization): an odd-length signal is extended by
  duplicating its last sample; each pair `(x₀, x₁)` produces the
  approximation `(x₀+x₁)/√2` and detail `(x₀-x₁)/√2`;
* `pywt.wavedec(s, level=D)` iterates `dwt` on the approximation and returns
  `[cA_D, cD_D, cD_(D-1), ..., cD_1]` — the detail arrays ordered from the
  coarsest level down to the finest (pywt's documented output order);
* `pywt.idwt` maps `(a, d)` pairwise to `(a+d)/√2, (a-d)/√2`;
* `pywt.waverec` folds `idwt` over the detail arrays, dropping the final
  approximation sample whenever the running approximation is one sample
  longer than the detail array of the current level. -/

/-- The ring `ℚ[√2]`: `⟨a, b⟩` denotes `a + b·√2`. -/
structure Q2 where
  a : ℚ
  b : ℚ
deriving DecidableEq

namespace Q2

instance : Zero Q2 := ⟨⟨0, 0⟩⟩

instance : Add Q2 := ⟨fun x y => ⟨x.a + y.a, x.b + y.b⟩⟩

instance : Neg Q2 := ⟨fun x => ⟨-x.a, -x.b⟩⟩

instance : Sub Q2 := ⟨fun x y => ⟨x.a - y.a, x.b - y.b⟩⟩

instance : Mul Q2 := ⟨fun x y => ⟨x.a * y.a + 2 * (x.b * y.b), x.a * y.b + x.b * y.a⟩⟩

def ofRat (q : ℚ) : Q2 := ⟨q, 0⟩

/-- The Haar filter coefficient `1/√2 = √2/2`. -/
def hh : Q2 := ⟨0, 1/2⟩

/-- Sign of `a + b·√2` as a real number, decided by rational arithmetic. -/
def q2pos (x : Q2) : Bool :=
  if 0 ≤ x.a then
    (if 0 ≤ x.b then decide (0 < x.a ∨ 0 < x.b) else decide (2 * x.b ^ 2 < x.a ^ 2))
  else
    (if 0 ≤ x.b then decide (x.a ^ 2 < 2 * x.b ^ 2) else false)

/-- Comparison used by `np.argmax` on the (real-valued) energy array. -/
def q2lt (x y : Q2) : Bool := q2pos (y - x)

end Q2

open Q2 in
/-- `pywt.dwt` (Haar, periodization) as a list of `(cA, cD)` pairs. -/
def dwtPairs : List Q2 → List (Q2 × Q2)
  | [] => []
  | [x] => [((x + x) * hh, (x - x) * hh)]
  | x :: y :: t => ((x + y) * hh, (x - y) * hh) :: dwtPairs t

def dwtA (s : List Q2) : List Q2 := (dwtPairs s).map Prod.fst

def dwtD (s : List Q2) : List Q2 := (dwtPairs s).map Prod.snd

/-- The `pywt.wavedec` recursion: final approximation plus the detail arrays
in finest-first order (the detail of the first iteration — level 1, the
finest — comes first). -/
def wavedecAux : List Q2 → ℕ → List Q2 × List (List Q2)
  | s, 0 => (s, [])
  | s, D+1 =>
      let rest := wavedecAux (dwtA s) D
      (rest.1, dwtD s :: rest.2)

/-- `pywt.wavedec(series, 'haar', mode='periodization', level=D)`:
`[cA_D, cD_D, ..., cD_1]`, approximation first, then details from coarsest
to finest. -/
def wavedec (s : List Q2) (D : ℕ) : List (List Q2) :=
  (wavedecAux s D).1 :: (wavedecAux s D).2.reverse

open Q2 in
/-- `pywt.idwt` (Haar, periodization). -/
def idwt1 : List Q2 → List Q2 → List Q2
  | a0 :: a', d0 :: d' => (a0 + d0) * hh :: (a0 - d0) * hh :: idwt1 a' d'
  | _, _ => []

/-- `pywt.waverec` truncates the running approximation by one sample when it
is one longer than the current detail array. -/
def trimA (a d : List Q2) : List Q2 :=
  if a.length = d.length + 1 then a.dropLast else a

def waverecSteps : List Q2 → List (List Q2) → List Q2
  | a, [] => a
  | a, d :: ds => waverecSteps (idwt1 (trimA a d) d) ds

/-- `pywt.waverec(coeffs, 'haar', mode='periodization')`. -/
def waverec : List (List Q2) → List Q2
  | [] => []
  | a :: ds => waverecSteps a ds

/-- `np.sum(np.square(c))`. -/
def energy (c : List Q2) : Q2 := (c.map (fun v => v * v)).foldr (fun x y => x + y) 0

/-- `level_energy` (wavelet.py line 90): detail arrays are `coeffs[1:]`. -/
def levelEnergy (coeffs : List (List Q2)) : List Q2 := (coeffs.drop 1).map energy

/-- `dominant_level = int(np.argmax(self.level_energy) + 1)` (line 91). -/
def dominantLevel (coeffs : List (List Q2)) : Option ℕ :=
  (argmaxIdx Q2.q2lt (levelEnergy coeffs)).map (fun i => i + 1)

/-- `period_estimates = [2 ** (i + 1) / sampling_rate for i in range(len(detail_coeffs))]`
(line 94). -/
def periodEstimates (coeffs : List (List Q2)) (samplingRate : ℚ) : List ℚ :=
  (List.range (coeffs.length - 1)).map (fun i : ℕ => (2 ^ (i+1) : ℚ) / samplingRate)

/-- `np.zeros_like(c)`. -/
def zeroVec (c : List Q2) : List Q2 := c.map (fun _ => 0)

/-- The coefficient list built by `reconstruct`: every array zeroed, then the
array at index `j` restored (`coeffs_copy[level] = self.coeffs[level]`). -/
def zeroExcept (coeffs : List (List Q2)) (j : ℕ) : List (List Q2) :=
  (coeffs.map zeroVec).set j (coeffs.getD j [])

/-- The coefficient list with only the approximation (index 0) zeroed. -/
def zeroApprox (coeffs : List (List Q2)) : List (List Q2) :=
  match coeffs with
  | [] => []
  | a :: ds => zeroVec a :: ds

/-- Body of `reconstruct` for Python index `j`, including the final
truncation `recon[:len(self.series)]`. -/
def reconstructLevel (coeffs : List (List Q2)) (j : ℕ) (n : ℕ) : List Q2 :=
  (waverec (zeroExcept coeffs j)).take n

inductive WErr where
  | notComputed : WErr
  | indexError : WErr
deriving DecidableEq

/-- `WaveletAnalyzer.reconstruct` (lines 98-119): raises `ValueError`
(`NotComputed`) when `compute` has not run; otherwise performs the Python
list assignment `coeffs_copy[level] = self.coeffs[level]` — negative levels
index from the end, out-of-range levels raise `IndexError` — then
synthesises and truncates to the original series length. -/
def reconstructE (st : Option (List (List Q2))) (n : ℕ) (level : ℤ) :
    Except WErr (List Q2) :=
  match st with
  | none => .error .notComputed
  | some coeffs =>
      if -(coeffs.length : ℤ) ≤ level ∧ level < (coeffs.length : ℤ) then
        .ok (reconstructLevel coeffs (if 0 ≤ level then level else level + coeffs.length).toNat n)
      else .error .indexError

/-! ### Linearity of the synthesis -/

/-- Pointwise sum of two coefficient arrays. -/
def vecAdd (x y : List Q2) : List Q2 := List.zipWith (fun u v => u + v) x y

/-- Pointwise sum of two coefficient lists. -/
def listAdd (x y : List (List Q2)) : List (List Q2) := List.zipWith vecAdd x y

/-- Pointwise sum of a collection of arrays (`sum of reconstructions`). -/
def sumVecs : List (List Q2) → List Q2
  | [] => []
  | [v] => v
  | v :: r => vecAdd v (sumVecs r)

/-- Pointwise sum of a collection of coefficient lists. -/
def bigAdd : List (List (List Q2)) → List (List Q2)
  | [] => []
  | [u] => u
  | u :: r => listAdd u (bigAdd r)

lemma argmaxAux_spec (t : List ℚ) : ∀ (bi i : ℕ) (bv : ℚ),
    (argmaxAux ratLt bi bv i t = bi ∧ ∀ j, j < t.length → t.getD j 0 ≤ bv) ∨
    (∃ j, j < t.length ∧ argmaxAux ratLt bi bv i t = i + j ∧ bv < t.getD j 0 ∧
      (∀ k, k < t.length → t.getD k 0 ≤ t.getD j 0) ∧
      (∀ k, k < j → t.getD k 0 < t.getD j 0)) := by
  induction t with
  | nil =>
      intro bi i bv
      exact Or.inl ⟨rfl, fun j hj => absurd hj (by simp)⟩
  | cons v t ih =>
      intro bi i bv
      by_cases hlt : bv < v
      · have hred : argmaxAux ratLt bi bv i (v :: t) = argmaxAux ratLt i v (i+1) t := by
          simp [argmaxAux, ratLt, hlt]
        rcases ih i (i+1) v with ⟨heq, hall⟩ | ⟨j, hj, heq, hgt, hle, hstrict⟩
        · refine Or.inr ⟨0, by simp, ?_, ?_, ?_, ?_⟩
          · rw [hred, heq, Nat.add_zero]
          · simpa using hlt
          · intro k hk
            cases k with
            | zero => simp
            | succ k =>
                have : t.getD k 0 ≤ v := hall k (by simpa using hk)
                simpa using this
          · intro k hk; omega
        · refine Or.inr ⟨j+1, by simpa using hj, ?_, ?_, ?_, ?_⟩
          · rw [hred, heq]; omega
          · have : bv < t.getD j 0 := lt_trans hlt hgt
            simpa using this
          · intro k hk
            cases k with
            | zero => simpa using le_of_lt hgt
            | succ k =>
                have : t.getD k 0 ≤ t.getD j 0 := hle k (by simpa using hk)
                simpa using this
          · intro k hk
            cases k with
            | zero => simpa using hgt
            | succ k =>
                have : t.getD k 0 < t.getD j 0 := hstrict k (by omega)
                simpa using this
      · have hred : argmaxAux ratLt bi bv i (v :: t) = argmaxAux ratLt bi bv (i+1) t := by
          simp [argmaxAux, ratLt, hlt]
        have hvle : v ≤ bv := le_of_not_lt hlt
        rcases ih bi (i+1) bv with ⟨heq, hall⟩ | ⟨j, hj, heq, hgt, hle, hstrict⟩
        · refine Or.inl ⟨by rw [hred, heq], ?_⟩
          intro k hk
          cases k with
          | zero => simpa using hvle
          | succ k =>
              have : t.getD k 0 ≤ bv := hall k (by simpa using hk)
              simpa using this
        · refine Or.inr ⟨j+1, by simpa using hj, ?_, ?_, ?_, ?_⟩
          · rw [hred, heq]; omega
          · simpa using hgt
          · intro k hk
            cases k with
            | zero => simpa using le_of_lt (lt_of_le_of_lt hvle hgt)
            | succ k =>
                have : t.getD k 0 ≤ t.getD j 0 := hle k (by simpa using hk)
                simpa using this
          · intro k hk
            cases k with
            | zero => simpa using lt_of_le_of_lt hvle hgt
            | succ k =>
                have : t.getD k 0 < t.getD j 0 := hstrict k (by omega)
                simpa using this

lemma argmaxIdx_spec (l : List ℚ) (hl : l ≠ []) :
    ∃ p, argmaxIdx ratLt l = some p ∧ p < l.length ∧
      (∀ k, k < l.length → l.getD k 0 ≤ l.getD p 0) ∧
      (∀ k, k < p → l.getD k 0 < l.getD p 0) := by
  cases l with
  | nil => exact absurd rfl hl
  | cons x t =>
      rcases argmaxAux_spec t 0 1 x with ⟨heq, hall⟩ | ⟨j, hj, heq, hgt, hle, hstrict⟩
      · refine ⟨0, by simp [argmaxIdx, heq], by simp, ?_, ?_⟩
        · intro k hk
          cases k with
          | zero => simp
          | succ k =>
              have : t.getD k 0 ≤ x := hall k (by simpa using hk)
              simpa using this
        · intro k hk; omega
      · refine ⟨j+1, ?_, by simpa using hj, ?_, ?_⟩
        · simp [argmaxIdx, heq]; omega
        · intro k hk
          cases k with
          | zero => simpa using le_of_lt hgt
          | succ k =>
              have : t.getD k 0 ≤ t.getD j 0 := hle k (by simpa using hk)
              simpa using this
        · intro k hk
          cases k with
          | zero => simpa using hgt
          | succ k =>
              have : t.getD k 0 < t.getD j 0 := hstrict k (by omega)
              simpa using this

lemma getD_drop_one (l : List ℚ) (p : ℕ) : (l.drop 1).getD p 0 = l.getD (p+1) 0 := by
  cases l with
  | nil => simp
  | cons x t => simp [List.getD]

/-! ### ACF theorems -/

/-- Local maxima do occur: on the period-3 series below, `find_peaks` over
`acf_vals[1:]` reports lag 3 (the true period, coefficient `3/4`), so the
emptiness of `multi_peaks` proven next is a property of the significance
filter, not a lack of candidates. -/
lemma acf_local_max_eval :
    2 ∈ findPeaksIdx ((acfVals [1,0,0,1,0,0,1,0,0,1,0,0] 4).drop 1) := by
  norm_num [findPeaksIdx, acfVals, acfAcov, seriesCentered, seriesMean, ratLt,
    List.range_succ, List.getD]

/-- C5: for every valid series (at least two samples, `1 ≤ L < N`), the primary
period estimate `peak_lag` is a lag in `[1, L]` whose coefficient is maximal
among lags `1..L`, and every smaller lag has a strictly smaller coefficient,
so ties are deterministically broken towards the lowest lag. -/
theorem acf_peak_lag_spec (s : List ℚ) (L : ℕ)
    (_hn : 2 ≤ s.length) (hL1 : 1 ≤ L) (_hLn : L < s.length) :
    ∃ p, acfPeakLag s L = some p ∧ 1 ≤ p ∧ p ≤ L ∧
      (∀ k, 1 ≤ k → k ≤ L → (acfVals s L).getD k 0 ≤ (acfVals s L).getD p 0) ∧
      (∀ k, 1 ≤ k → k < p → (acfVals s L).getD k 0 < (acfVals s L).getD p 0) := by
  have hlen : (acfVals s L).length = L + 1 := by simp [acfVals]
  have hdlen : ((acfVals s L).drop 1).length = L := by simp [hlen]
  have hne : (acfVals s L).drop 1 ≠ [] := by
    intro h0
    have h1 := congrArg List.length h0
    rw [hdlen] at h1
    simp at h1
    omega
  obtain ⟨p0, hsome, hplt, hle, hstrict⟩ := argmaxIdx_spec ((acfVals s L).drop 1) hne
  rw [hdlen] at hplt
  refine ⟨p0 + 1, ?_, by omega, by omega, ?_, ?_⟩
  · show (argmaxIdx ratLt ((acfVals s L).drop 1)).map (fun i => i + 1) = some (p0 + 1)
    rw [hsome]
    rfl
  · intro k h1k hkL
    obtain ⟨k', rfl⟩ : ∃ k', k = k' + 1 := ⟨k - 1, by omega⟩
    have h1 : ((acfVals s L).drop 1).getD k' 0 ≤ ((acfVals s L).drop 1).getD p0 0 :=
      hle k' (by rw [hdlen]; omega)
    rwa [getD_drop_one, getD_drop_one] at h1
  · intro k h1k hkp
    obtain ⟨k', rfl⟩ : ∃ k', k = k' + 1 := ⟨k - 1, by omega⟩
    have h1 : ((acfVals s L).drop 1).getD k' 0 < ((acfVals s L).drop 1).getD p0 0 :=
      hstrict k' (by omega)
    rwa [getD_drop_one, getD_drop_one] at h1

/-- C5 witness: the peak-lag specification evaluated on a concrete series. -/
theorem acf_peak_lag_spec_w :
    ∃ p, acfPeakLag [1,0,0,1,0,0] 3 = some p ∧ 1 ≤ p ∧ p ≤ 3 ∧
      (∀ k, 1 ≤ k → k ≤ 3 →
        (acfVals [1,0,0,1,0,0] 3).getD k 0 ≤ (acfVals [1,0,0,1,0,0] 3).getD p 0) ∧
      (∀ k, 1 ≤ k → k < p →
        (acfVals [1,0,0,1,0,0] 3).getD k 0 < (acfVals [1,0,0,1,0,0] 3).getD p 0) :=
  acf_peak_lag_spec [1,0,0,1,0,0] 3 (by decide) (by decide) (by decide)

/-- C10 counterexample: on the valid two-sample constant series `[1, 1]` the
autocovariance at lag 0 vanishes, the normalisation divides by zero, and the
coefficient returned at lag 0 is not 1 (the float implementation yields NaN;
the exact embedding yields 0). -/
theorem acf_lag0_constant_cex : (acfVals [1,1] 1).getD 0 0 ≠ 1 := by
  norm_num [acfVals, acfAcov, seriesCentered, seriesMean, List.getD, List.range_succ]

/-- C10 (amended): for every series whose centered sum of squares is nonzero
(i.e. not all samples equal), the autocorrelation coefficient at lag 0 is
exactly 1. -/
theorem acf_lag0_spec (s : List ℚ) (L : ℕ) (hvar : acfAcov s 0 ≠ 0) :
    (acfVals s L).getD 0 0 = 1 := by
  have h1 : acfVals s L
      = (acfAcov s 0 / acfAcov s 0)
        :: (List.map Nat.succ (List.range L)).map (fun k => acfAcov s k / acfAcov s 0) := by
    rw [acfVals, List.range_succ_eq_map]
    simp
  rw [h1]
  simp [List.getD]
  exact div_self hvar

/-- C10 witness: lag-0 coefficient on a concrete non-constant series. -/
theorem acf_lag0_spec_w :
    acfAcov [1,2] 0 ≠ 0 ∧ (acfVals [1,2] 1).getD 0 0 = 1 :=
  ⟨by norm_num [acfAcov, seriesCentered, seriesMean],
    acf_lag0_spec [1,2] 1 (by norm_num [acfAcov, seriesCentered, seriesMean])⟩

/-- C2: the secondary candidate list `multi_peaks` is always empty, because the
code compares the coefficient `val = acf_vals[lag]` against
`upper[lag] = confint[lag, 1] = acf_vals[lag] + iv[lag]`, the upper bound of a
confidence interval centred at the coefficient itself, whose half-width
`iv[lag]` is nonnegative; `val > val + iv[lag]` can never hold.  This
contradicts the claim (and the enclosing class documentation), under which
any local maximum exceeding the zero-centred significance band should be
reported. -/
theorem acf_multi_peaks_empty (s : List ℚ) (L : ℕ) (iv : List ℚ)
    (hiv : ∀ k, 0 ≤ iv.getD k 0) : acfMultiPeaks s L iv = [] := by
  rw [show acfMultiPeaks s L iv
      = (findPeaksIdx ((acfVals s L).drop 1)).filterMap
          (fun p =>
            if (acfVals s L).getD (p+1) 0 + iv.getD (p+1) 0 < ((acfVals s L).drop 1).getD p 0
            then some (p+1, ((acfVals s L).drop 1).getD p 0) else none) from rfl]
  refine List.filterMap_eq_nil_iff.mpr (fun p _ => ?_)
  rw [getD_drop_one]
  exact if_neg (by have := hiv (p+1); linarith)

/-- C2 witness: the empty-candidate theorem evaluated on a concrete periodic
series (with the degenerate all-zero half-width list). -/
theorem acf_multi_peaks_empty_w :
    (∀ k, 0 ≤ ([] : List ℚ).getD k 0) ∧ acfMultiPeaks [1,0,0,1,0,0] 3 [] = [] :=
  ⟨fun k => by simp [List.getD], acf_multi_peaks_empty [1,0,0,1,0,0] 3 [] (fun k => by simp [List.getD])⟩

lemma argmaxIdx_eq_none {α : Type} (lt : α → α → Bool) (l : List α) :
    argmaxIdx lt l = none ↔ l = [] := by
  cases l <;> simp [argmaxIdx]

lemma getD_range_map (f : ℕ → ℚ) (m i : ℕ) (hi : i < m) :
    ((List.range m).map f).getD i 0 = f i := by
  rw [List.getD_eq_getElem?_getD, List.getElem?_map, List.getElem?_range hi]
  rfl

lemma fftCompute_eq_ok (mags : List ℚ) (fs : ℚ) (hfs : ¬ fs = 0) {i : ℕ}
    (h : argmaxIdx ratLt
        (((mags.map (fun v => v / (mags.length : ℚ))).take (mags.length / 2)).drop 1)
        = some i) :
    fftCompute mags fs = .ok
      { peakFreq := ((List.range (mags.length / 2)).map
          (fun k : ℕ => (k : ℚ) * fs / (mags.length : ℚ))).getD (i+1) 0
        period := if ((List.range (mags.length / 2)).map
            (fun k : ℕ => (k : ℚ) * fs / (mags.length : ℚ))).getD (i+1) 0 ≠ 0
          then some (1 / ((List.range (mags.length / 2)).map
            (fun k : ℕ => (k : ℚ) * fs / (mags.length : ℚ))).getD (i+1) 0) else none
        strength := ((mags.map (fun v => v / (mags.length : ℚ))).take (mags.length / 2)).getD (i+1) 0
        freqs := (List.range (mags.length / 2)).map (fun k : ℕ => (k : ℚ) * fs / (mags.length : ℚ))
        amps := (mags.map (fun v => v / (mags.length : ℚ))).take (mags.length / 2) } := by
  simp only [fftCompute]
  rw [if_neg hfs, h]

/-! ### FFT theorems -/

/-- C4 counterexample: on a valid series of length `N = 2` (DFT magnitudes
`[0, 2]`, which are exactly those of the centered series `[1, -1]`) the peak
search range `1..⌊N/2⌋-1` is empty and `compute()` aborts with the error of
`np.argmax` on an empty slice instead of selecting a dominant frequency and
reporting a period. -/
theorem fft_short_series_cex : fftCompute [0, 2] 1 = .error .emptyArgmax := by
  norm_num [fftCompute, argmaxIdx]

/-- C4 (amended): for `N ≥ 4` and sampling rate `fs > 0`, `compute()` retains
exactly `⌊N/2⌋` bins of the magnitude-normalised spectrum, excludes the DC bin
from peak search, selects the first-occurrence argmax over bins
`1..⌊N/2⌋-1`, and reports `period = 1/frequency` for that bin. -/
theorem fft_compute_spec (mags : List ℚ) (fs : ℚ)
    (hn : 4 ≤ mags.length) (hfs : 0 < fs) :
    ∃ i r, fftCompute mags fs = .ok r ∧ 1 ≤ i ∧ i < mags.length / 2 ∧
      r.amps = (mags.map (fun v => v / (mags.length : ℚ))).take (mags.length / 2) ∧
      r.amps.length = mags.length / 2 ∧
      r.freqs.length = mags.length / 2 ∧
      r.peakFreq = (i : ℚ) * fs / (mags.length : ℚ) ∧
      r.period = some (1 / r.peakFreq) ∧
      r.strength = r.amps.getD i 0 ∧
      (∀ j, 1 ≤ j → j < mags.length / 2 → r.amps.getD j 0 ≤ r.amps.getD i 0) ∧
      (∀ j, 1 ≤ j → j < i → r.amps.getD j 0 < r.amps.getD i 0) := by
  have hfs0 : ¬ fs = 0 := ne_of_gt hfs
  have hlen : ((mags.map (fun v => v / (mags.length : ℚ))).take (mags.length / 2)).length
      = mags.length / 2 := by
    simp [List.length_take, List.length_map]
    omega
  have hdlen : (((mags.map (fun v => v / (mags.length : ℚ))).take (mags.length / 2)).drop 1).length
      = mags.length / 2 - 1 := by
    simp [hlen]
  have hne : ((mags.map (fun v => v / (mags.length : ℚ))).take (mags.length / 2)).drop 1 ≠ [] := by
    intro h0
    have h1 := congrArg List.length h0
    rw [hdlen] at h1
    simp at h1
    omega
  obtain ⟨p0, hsome, hplt, hle, hstrict⟩ := argmaxIdx_spec _ hne
  rw [hdlen] at hplt
  have hnpos : (0 : ℚ) < (mags.length : ℚ) := by exact_mod_cast (by omega : 0 < mags.length)
  have hppos : (0 : ℚ) < ((p0 + 1 : ℕ) : ℚ) := by exact_mod_cast Nat.succ_pos p0
  have hpfpos : (0 : ℚ) < ((p0 + 1 : ℕ) : ℚ) * fs / (mags.length : ℚ) :=
    div_pos (mul_pos hppos hfs) hnpos
  have hgetfreq : ((List.range (mags.length / 2)).map
      (fun k : ℕ => (k : ℚ) * fs / (mags.length : ℚ))).getD (p0+1) 0
      = ((p0 + 1 : ℕ) : ℚ) * fs / (mags.length : ℚ) := by
    rw [getD_range_map _ _ _ (by omega)]
  refine ⟨p0 + 1, _, fftCompute_eq_ok mags fs hfs0 hsome, by omega, by omega,
    rfl, hlen, by simp, ?_, ?_, rfl, ?_, ?_⟩
  · simpa using hgetfreq
  · simp only [hgetfreq]
    rw [if_pos (ne_of_gt hpfpos)]
  · intro j h1j hj2
    obtain ⟨j', rfl⟩ : ∃ j', j = j' + 1 := ⟨j - 1, by omega⟩
    have h1 := hle j' (by rw [hdlen]; omega)
    rwa [getD_drop_one, getD_drop_one] at h1
  · intro j h1j hj2
    obtain ⟨j', rfl⟩ : ∃ j', j = j' + 1 := ⟨j - 1, by omega⟩
    have h1 := hstrict j' (by omega)
    rwa [getD_drop_one, getD_drop_one] at h1

/-- C4 witness: the amended spectral specification evaluated on the exact DFT
magnitudes `[0,2,0,2]` of the series `[1,0,-1,0]` at `fs = 1`. -/
theorem fft_compute_spec_w :
    4 ≤ ([0,2,0,2] : List ℚ).length ∧ (0 : ℚ) < 1 ∧
    (∃ i r, fftCompute [0,2,0,2] 1 = .ok r ∧ 1 ≤ i ∧ i < ([0,2,0,2] : List ℚ).length / 2 ∧
      r.amps = (([0,2,0,2] : List ℚ).map
        (fun v => v / (([0,2,0,2] : List ℚ).length : ℚ))).take (([0,2,0,2] : List ℚ).length / 2) ∧
      r.amps.length = ([0,2,0,2] : List ℚ).length / 2 ∧
      r.freqs.length = ([0,2,0,2] : List ℚ).length / 2 ∧
      r.peakFreq = (i : ℚ) * 1 / (([0,2,0,2] : List ℚ).length : ℚ) ∧
      r.period = some (1 / r.peakFreq) ∧
      r.strength = r.amps.getD i 0 ∧
      (∀ j, 1 ≤ j → j < ([0,2,0,2] : List ℚ).length / 2 →
        r.amps.getD j 0 ≤ r.amps.getD i 0) ∧
      (∀ j, 1 ≤ j → j < i → r.amps.getD j 0 < r.amps.getD i 0)) :=
  ⟨by decide, by norm_num, fft_compute_spec [0,2,0,2] 1 (by decide) (by norm_num)⟩

/-- C7: `compute()` performs no input validation at all: with a series of
length 4 (DFT magnitudes `[0,2,0,2]`, those of `[1,0,-1,0]`) and the invalid
sampling rate `fs = -1` it succeeds and returns a result, where the claim
demands an eager `InvalidInput` failure for every `fs ≤ 0`. -/
theorem fft_negative_fs_cex : ∃ r, fftCompute [0,2,0,2] (-1) = .ok r := by
  refine ⟨_, fftCompute_eq_ok [0,2,0,2] (-1) (by norm_num) (i := 0) ?_⟩
  norm_num [argmaxIdx, argmaxAux]

/-- C7 (amended): `compute()` never raises `InvalidInput`; it returns a result
exactly when `fs ≠ 0` and the series length is at least 4, and its failures
(`fs = 0`, length below 4) are a downstream `ZeroDivisionError` or the
`ValueError` of `np.argmax` on an empty slice, not an eager validation. -/
theorem fft_no_validation (mags : List ℚ) (fs : ℚ) :
    (∃ r, fftCompute mags fs = .ok r) ↔ (¬ fs = 0 ∧ 4 ≤ mags.length) := by
  by_cases hfs : fs = 0
  · simp [fftCompute, hfs]
  · rcases h : argmaxIdx ratLt
        (((mags.map (fun v => v / (mags.length : ℚ))).take (mags.length / 2)).drop 1)
        with _ | i
    · have hlist := (argmaxIdx_eq_none _ _).mp h
      have h3 : mags.length ≤ 3 := by
        have h1 := congrArg List.length hlist
        simp [List.length_take, List.length_map] at h1
        omega
      have herr : fftCompute mags fs = .error .emptyArgmax := by
        simp only [fftCompute]
        rw [if_neg hfs, h]
      simp [herr, hfs]
      omega
    · have hok := fftCompute_eq_ok mags fs hfs h
      have hne : ((mags.map (fun v => v / (mags.length : ℚ))).take (mags.length / 2)).drop 1
          ≠ [] := by
        intro h0
        rw [h0] at h
        simp [argmaxIdx] at h
      have h4 : 4 ≤ mags.length := by
        have h1 : 0 < (((mags.map (fun v => v / (mags.length : ℚ))).take
            (mags.length / 2)).drop 1).length := List.length_pos.mpr hne
        simp [List.length_take, List.length_map] at h1
        omega
      simp [hok, hfs, h4]

/-! ### Lomb-Scargle theorems -/

/-- C8 counterexample: with equal-length `t = [0,1]`, `y = [1,3]`, a valid
frequency range `[1/100, 1]` but grid resolution `R = 1 < 2`, `compute()`
succeeds and returns the single grid frequency as the peak, where the claim
demands an `InvalidInput` failure for every `R < 2`. -/
theorem lomb_resolution_one_cex :
    ∃ r, lombCompute [0, 1] [1, 3] (1/100) 1 1 [0] = .ok r := by
  refine ⟨⟨1/100, some 100, [1/100], [0]⟩, ?_⟩
  norm_num [lombCompute, lombLinspace, argmaxIdx, argmaxAux, List.getD]

/-- C8 (amended): `compute()` performs no eager validation and never raises
`InvalidInput`: given the scipy power vector (one value per grid frequency),
it returns a result exactly when `t` and `y` have equal length and `R ≥ 1`;
the only failures are the scipy shape error on mismatched inputs and the
`np.argmax` error on an empty grid (`R = 0`).  `R = 1` and
`f_min ≥ f_max` are accepted. -/
theorem lomb_failure_spec (t y : List ℚ) (fmin fmax : ℚ) (R : ℕ) (power : List ℚ)
    (hR : power.length = R) :
    (∃ r, lombCompute t y fmin fmax R power = .ok r) ↔
      (t.length = y.length ∧ 1 ≤ R) := by
  by_cases hty : t.length = y.length
  · rcases hp : argmaxIdx ratLt power with _ | i
    · have hnil := (argmaxIdx_eq_none _ _).mp hp
      have hR0 : R = 0 := by rw [hnil] at hR; simpa using hR.symm
      have herr : lombCompute t y fmin fmax R power = .error .emptyArgmax := by
        simp only [lombCompute]
        rw [if_neg (by omega), hp]
      rw [hR0] at herr
      rw [hR0]
      simp [herr]
    · have hok : lombCompute t y fmin fmax R power = .ok
          { peakFreq := (lombLinspace fmin fmax R).getD i 0
            period := if 0 < (lombLinspace fmin fmax R).getD i 0
              then some (1 / (lombLinspace fmin fmax R).getD i 0) else none
            freqs := lombLinspace fmin fmax R
            power := power } := by
        simp only [lombCompute]
        rw [if_neg (by omega), hp]
      have hne : power ≠ [] := by
        intro h0
        rw [h0] at hp
        simp [argmaxIdx] at hp
      have hR1 : 1 ≤ R := by
        have := List.length_pos.mpr hne
        omega
      simp [hok, hty, hR1]
  · have herr : lombCompute t y fmin fmax R power = .error .shapeMismatch := by
      simp only [lombCompute]
      rw [if_pos (by omega)]
    simp [herr, hty]

/-- C8 witness: the amended failure specification evaluated at a concrete
resolution-one instance. -/
theorem lomb_failure_spec_w :
    ([(0:ℚ)] : List ℚ).length = 1 ∧
    ((∃ r, lombCompute [0, 1] [2, 4] (1/100) 1 1 [0] = .ok r) ↔
      (([(0:ℚ), 1] : List ℚ).length = ([(2:ℚ), 4] : List ℚ).length ∧ 1 ≤ 1)) :=
  ⟨rfl, lomb_failure_spec [0, 1] [2, 4] (1/100) 1 1 [0] rfl⟩

@[simp] lemma Q2.zero_a : (0 : Q2).a = 0 := rfl

@[simp] lemma Q2.zero_b : (0 : Q2).b = 0 := rfl

@[simp] lemma Q2.add_a (x y : Q2) : (x + y).a = x.a + y.a := rfl

@[simp] lemma Q2.add_b (x y : Q2) : (x + y).b = x.b + y.b := rfl

@[simp] lemma Q2.neg_a (x : Q2) : (-x).a = -x.a := rfl

@[simp] lemma Q2.neg_b (x : Q2) : (-x).b = -x.b := rfl

@[simp] lemma Q2.sub_a (x y : Q2) : (x - y).a = x.a - y.a := rfl

@[simp] lemma Q2.sub_b (x y : Q2) : (x - y).b = x.b - y.b := rfl

@[simp] lemma Q2.mul_a (x y : Q2) : (x * y).a = x.a * y.a + 2 * (x.b * y.b) := rfl

@[simp] lemma Q2.mul_b (x y : Q2) : (x * y).b = x.a * y.b + x.b * y.a := rfl

@[simp] lemma Q2.ofRat_a (q : ℚ) : (ofRat q).a = q := rfl

@[simp] lemma Q2.ofRat_b (q : ℚ) : (ofRat q).b = 0 := rfl

lemma Q2.ext2 {x y : Q2} (ha : x.a = y.a) (hb : x.b = y.b) : x = y := by
  cases x; cases y; cases ha; cases hb; rfl

@[simp] lemma Q2.hh_a : hh.a = 0 := rfl

@[simp] lemma Q2.hh_b : hh.b = 1/2 := rfl

lemma Q2.synth_fst (x y : Q2) : ((x + y) * hh + (x - y) * hh) * hh = x := by
  refine ext2 ?_ ?_ <;> simp <;> ring

lemma Q2.synth_snd (x y : Q2) : ((x + y) * hh - (x - y) * hh) * hh = y := by
  refine ext2 ?_ ?_ <;> simp <;> ring

lemma Q2.add_mul_hh (x y u v : Q2) : ((x + u) + (y + v)) * hh = (x + y) * hh + (u + v) * hh := by
  refine ext2 ?_ ?_ <;> simp <;> ring

lemma Q2.sub_mul_hh (x y u v : Q2) : ((x + u) - (y + v)) * hh = (x - y) * hh + (u - v) * hh := by
  refine ext2 ?_ ?_ <;> simp <;> ring

lemma Q2.zero_add_zero : (0 : Q2) + 0 = 0 := by
  refine ext2 ?_ ?_ <;> simp

lemma Q2.add_zero_q2 (x : Q2) : x + 0 = x := by
  refine ext2 ?_ ?_ <;> simp

lemma Q2.zero_add_q2 (x : Q2) : (0 : Q2) + x = x := by
  refine ext2 ?_ ?_ <;> simp

/-! ### Structural lemmas for the Haar pyramid -/

theorem dwtPairs_length : ∀ s : List Q2, (dwtPairs s).length = (s.length + 1) / 2
  | [] => rfl
  | [_] => by simp [dwtPairs]
  | x :: y :: t => by
      simp [dwtPairs, dwtPairs_length t]
      omega

lemma dwtA_length (s : List Q2) : (dwtA s).length = (s.length + 1) / 2 := by
  simp [dwtA, dwtPairs_length]

lemma dwtD_length (s : List Q2) : (dwtD s).length = (s.length + 1) / 2 := by
  simp [dwtD, dwtPairs_length]

theorem idwt1_length : ∀ a d : List Q2, (idwt1 a d).length = 2 * min a.length d.length
  | [], [] => by simp [idwt1]
  | [], _ :: _ => by simp [idwt1]
  | _ :: _, [] => by simp [idwt1]
  | a0 :: a', d0 :: d' => by
      simp [idwt1, idwt1_length a' d']
      omega

theorem idwt_dwt_take : ∀ s : List Q2, (idwt1 (dwtA s) (dwtD s)).take s.length = s
  | [] => rfl
  | [x] => by
      show (idwt1 [(x + x) * Q2.hh] [(x - x) * Q2.hh]).take 1 = [x]
      simp [idwt1, Q2.synth_fst]
  | x :: y :: t => by
      show (idwt1 ((x + y) * Q2.hh :: dwtA t) ((x - y) * Q2.hh :: dwtD t)).take (t.length + 2)
          = x :: y :: t
      simp [idwt1, Q2.synth_fst, Q2.synth_snd, idwt_dwt_take t]

lemma wavedecAux_details_length (D : ℕ) : ∀ s : List Q2, ((wavedecAux s D).2).length = D := by
  induction D with
  | zero => intro s; rfl
  | succ D ih => intro s; simp [wavedecAux, ih]

lemma wavedec_length (s : List Q2) (D : ℕ) : (wavedec s D).length = D + 1 := by
  simp [wavedec, wavedecAux_details_length]

lemma waverecSteps_append (a : List Q2) (ds : List (List Q2)) (d : List Q2) :
    waverecSteps a (ds ++ [d]) = idwt1 (trimA (waverecSteps a ds) d) d := by
  induction ds generalizing a with
  | nil => rfl
  | cons e es ih => simp [waverecSteps, ih]

/-- The decomposition/reconstruction round trip, together with the exact
length of the synthesised signal. -/
theorem waverec_wavedec (D : ℕ) : ∀ s : List Q2,
    (waverec (wavedec s D)).take s.length = s ∧
    (waverec (wavedec s D)).length
      = (if D = 0 then s.length else 2 * ((s.length + 1) / 2)) := by
  induction D with
  | zero =>
      intro s
      exact ⟨by simp [waverec, wavedec, wavedecAux, waverecSteps],
        by simp [waverec, wavedec, wavedecAux, waverecSteps]⟩
  | succ D ih =>
      intro s
      have hkey : waverec (wavedec s (D+1))
          = idwt1 (trimA (waverec (wavedec (dwtA s) D)) (dwtD s)) (dwtD s) := by
        show waverecSteps (wavedecAux (dwtA s) D).1
            ((dwtD s :: (wavedecAux (dwtA s) D).2).reverse) = _
        rw [List.reverse_cons, waverecSteps_append]
        rfl
      have hmd : (dwtD s).length = (dwtA s).length := by
        rw [dwtD_length, dwtA_length]
      obtain ⟨ih1, ih2⟩ := ih (dwtA s)
      have hlen2 : (waverec (wavedec (dwtA s) D)).length = (dwtA s).length ∨
          (waverec (wavedec (dwtA s) D)).length = (dwtA s).length + 1 := by
        rcases Nat.eq_zero_or_pos D with hD0 | hDpos
        · subst hD0
          rw [ih2, if_pos rfl]
          left; rfl
        · rw [ih2, if_neg (by omega), dwtA_length]
          omega
      have htrim : trimA (waverec (wavedec (dwtA s) D)) (dwtD s) = dwtA s := by
        rcases hlen2 with hl | hl
        · rw [trimA, if_neg (by rw [hl, hmd]; omega)]
          calc waverec (wavedec (dwtA s) D)
              = (waverec (wavedec (dwtA s) D)).take
                  (waverec (wavedec (dwtA s) D)).length := (List.take_length _).symm
            _ = dwtA s := by rw [hl]; exact ih1
        · rw [trimA, if_pos (by rw [hl, hmd])]
          rw [List.dropLast_eq_take, hl]
          simpa using ih1
      rw [hkey, htrim]
      refine ⟨idwt_dwt_take s, ?_⟩
      rw [idwt1_length, hmd, if_neg (by omega), dwtA_length]
      omega

lemma vecAdd_length (x y : List Q2) : (vecAdd x y).length = min x.length y.length := by
  simp [vecAdd]

lemma take_vecAdd (n : ℕ) (x y : List Q2) :
    (vecAdd x y).take n = vecAdd (x.take n) (y.take n) := by
  simp [vecAdd, List.take_zipWith]

lemma idwt1_add : ∀ (a a' d d' : List Q2), a.length = a'.length → d.length = d'.length →
    idwt1 (vecAdd a a') (vecAdd d d') = vecAdd (idwt1 a d) (idwt1 a' d') := by
  intro a
  induction a with
  | nil =>
      intro a' d d' ha _
      have : a' = [] := List.eq_nil_of_length_eq_zero ha.symm
      subst this
      cases d <;> cases d' <;> simp [vecAdd, idwt1]
  | cons a0 as ih =>
      intro a' d d' ha hd
      cases a' with
      | nil => simp at ha
      | cons a0' as' =>
          cases d with
          | nil =>
              have : d' = [] := List.eq_nil_of_length_eq_zero hd.symm
              subst this
              simp [vecAdd, idwt1]
          | cons d0 ds =>
              cases d' with
              | nil => simp at hd
              | cons d0' ds' =>
                  show idwt1 ((a0 + a0') :: vecAdd as as') ((d0 + d0') :: vecAdd ds ds')
                      = vecAdd (idwt1 (a0 :: as) (d0 :: ds)) (idwt1 (a0' :: as') (d0' :: ds'))
                  rw [idwt1, idwt1, idwt1]
                  show _ = vecAdd ((a0 + d0) * Q2.hh :: (a0 - d0) * Q2.hh :: idwt1 as ds)
                      ((a0' + d0') * Q2.hh :: (a0' - d0') * Q2.hh :: idwt1 as' ds')
                  rw [show vecAdd ((a0 + d0) * Q2.hh :: (a0 - d0) * Q2.hh :: idwt1 as ds)
                      ((a0' + d0') * Q2.hh :: (a0' - d0') * Q2.hh :: idwt1 as' ds')
                      = ((a0 + d0) * Q2.hh + (a0' + d0') * Q2.hh)
                        :: ((a0 - d0) * Q2.hh + (a0' - d0') * Q2.hh)
                        :: vecAdd (idwt1 as ds) (idwt1 as' ds') from rfl]
                  rw [ih as' ds ds' (by simpa using ha) (by simpa using hd)]
                  rw [Q2.add_mul_hh, Q2.sub_mul_hh]

lemma trimA_length (a d : List Q2) :
    (trimA a d).length = if a.length = d.length + 1 then a.length - 1 else a.length := by
  rw [trimA]
  by_cases h : a.length = d.length + 1 <;> simp [h]

lemma trimA_add (a a' d d' : List Q2) (ha : a.length = a'.length) (hd : d.length = d'.length) :
    trimA (vecAdd a a') (vecAdd d d') = vecAdd (trimA a d) (trimA a' d') := by
  rw [trimA, trimA, trimA, vecAdd_length, vecAdd_length, ← ha, ← hd]
  by_cases h : a.length = d.length + 1
  · rw [if_pos (by omega), if_pos h, if_pos (by omega)]
    rw [List.dropLast_eq_take, List.dropLast_eq_take, List.dropLast_eq_take,
      vecAdd_length, take_vecAdd, ← ha]
    simp [Nat.min_self]
  · rw [if_neg (by omega), if_neg h, if_neg (by omega)]

lemma listAdd_shape (x y : List (List Q2)) (h : x.map List.length = y.map List.length) :
    (listAdd x y).map List.length = x.map List.length := by
  induction x generalizing y with
  | nil => simp [listAdd]
  | cons u xs ih =>
      cases y with
      | nil => simp at h
      | cons v ys =>
          simp only [List.map_cons, List.cons.injEq] at h
          show (vecAdd u v :: listAdd xs ys).map List.length = _
          simp only [List.map_cons, List.cons.injEq]
          exact ⟨by rw [vecAdd_length, h.1]; omega, ih ys h.2⟩

lemma waverecSteps_add : ∀ (ds ds' : List (List Q2)) (a a' : List Q2),
    a.length = a'.length → ds.map List.length = ds'.map List.length →
    waverecSteps (vecAdd a a') (listAdd ds ds')
      = vecAdd (waverecSteps a ds) (waverecSteps a' ds') := by
  intro ds
  induction ds with
  | nil =>
      intro ds' a a' _ hsh
      have : ds' = [] := by
        cases ds' with
        | nil => rfl
        | cons v ys => simp at hsh
      subst this
      rfl
  | cons d dst ih =>
      intro ds' a a' ha hsh
      cases ds' with
      | nil => simp at hsh
      | cons d' dst' =>
          simp only [List.map_cons, List.cons.injEq] at hsh
          show waverecSteps (vecAdd a a') (vecAdd d d' :: listAdd dst dst') = _
          rw [waverecSteps, waverecSteps, waverecSteps]
          rw [trimA_add a a' d d' ha hsh.1, idwt1_add _ _ _ _ ?hlen hsh.1]
          · exact ih dst' _ _ (by rw [idwt1_length, idwt1_length, trimA_length,
              trimA_length, ha, hsh.1]) hsh.2
          · rw [trimA_length, trimA_length, ha, hsh.1]

lemma waverecSteps_length_congr : ∀ (ds ds' : List (List Q2)) (a a' : List Q2),
    a.length = a'.length → ds.map List.length = ds'.map List.length →
    (waverecSteps a ds).length = (waverecSteps a' ds').length := by
  intro ds
  induction ds with
  | nil =>
      intro ds' a a' ha hsh
      have : ds' = [] := by
        cases ds' with
        | nil => rfl
        | cons v ys => simp at hsh
      subst this
      exact ha
  | cons d dst ih =>
      intro ds' a a' ha hsh
      cases ds' with
      | nil => simp at hsh
      | cons d' dst' =>
          simp only [List.map_cons, List.cons.injEq] at hsh
          rw [waverecSteps, waverecSteps]
          exact ih dst' _ _ (by rw [idwt1_length, idwt1_length, trimA_length,
            trimA_length, ha, hsh.1]) hsh.2

lemma sumVecs_take (n : ℕ) : ∀ l : List (List Q2),
    sumVecs (l.map (List.take n)) = (sumVecs l).take n
  | [] => by simp [sumVecs]
  | [v] => rfl
  | v :: w :: r => by
      show sumVecs (v.take n :: (w :: r).map (List.take n))
          = (vecAdd v (sumVecs (w :: r))).take n
      have hne : (w :: r).map (List.take n) = w.take n :: r.map (List.take n) := rfl
      rw [hne]
      show vecAdd (v.take n) (sumVecs ((w :: r).map (List.take n))) = _
      rw [sumVecs_take n (w :: r), take_vecAdd]

lemma zeroVec_length (c : List Q2) : (zeroVec c).length = c.length := by simp [zeroVec]

lemma vecAdd_zeroVec_self (a : List Q2) : vecAdd (zeroVec a) (zeroVec a) = zeroVec a := by
  induction a with
  | nil => rfl
  | cons x xs ih =>
      show ((0 : Q2) + 0) :: vecAdd (zeroVec xs) (zeroVec xs) = (0 : Q2) :: zeroVec xs
      rw [Q2.zero_add_zero, ih]

lemma vecAdd_zeroVec_right (a : List Q2) : vecAdd a (zeroVec a) = a := by
  induction a with
  | nil => rfl
  | cons x xs ih =>
      show (x + 0) :: vecAdd xs (zeroVec xs) = x :: xs
      rw [Q2.add_zero_q2, ih]

lemma listAdd_map_zeroVec (l : List (List Q2)) : listAdd (l.map zeroVec) l = l := by
  induction l with
  | nil => rfl
  | cons x xs ih =>
      show vecAdd (zeroVec x) x :: listAdd (xs.map zeroVec) xs = x :: xs
      have hz : vecAdd (zeroVec x) x = x := by
        induction x with
        | nil => rfl
        | cons v vs ihv =>
            show ((0 : Q2) + v) :: vecAdd (zeroVec vs) vs = v :: vs
            rw [Q2.zero_add_q2, ihv]
      rw [hz, ih]

lemma zeroExcept_nil (j : ℕ) : zeroExcept [] j = [] := rfl

lemma zeroExcept_cons_zero (d : List Q2) (ds : List (List Q2)) :
    zeroExcept (d :: ds) 0 = d :: ds.map zeroVec := by
  simp [zeroExcept]

lemma zeroExcept_cons_succ (d : List Q2) (ds : List (List Q2)) (j : ℕ) :
    zeroExcept (d :: ds) (j+1) = zeroVec d :: zeroExcept ds j := by
  simp [zeroExcept, List.getD]

lemma zeroExcept_shape (c : List (List Q2)) : ∀ j : ℕ,
    (zeroExcept c j).map List.length = c.map List.length := by
  induction c with
  | nil => intro j; rfl
  | cons d ds ih =>
      intro j
      cases j with
      | zero =>
          rw [zeroExcept_cons_zero]
          simp [zeroVec]
      | succ j =>
          rw [zeroExcept_cons_succ]
          simp only [List.map_cons, zeroVec_length, List.cons.injEq]
          exact ⟨trivial, ih j⟩

lemma bigAdd_cons (u : List (List Q2)) (M : List (List (List Q2))) (hM : M ≠ []) :
    bigAdd (u :: M) = listAdd u (bigAdd M) := by
  cases M with
  | nil => exact absurd rfl hM
  | cons v r => rfl

lemma sumVecs_cons (v : List Q2) (l : List (List Q2)) (hl : l ≠ []) :
    sumVecs (v :: l) = vecAdd v (sumVecs l) := by
  cases l with
  | nil => exact absurd rfl hl
  | cons w r => rfl

lemma bigAdd_shape (σ : List ℕ) : ∀ us : List (List (List Q2)), us ≠ [] →
    (∀ u ∈ us, u.map List.length = σ) → (bigAdd us).map List.length = σ
  | [], h, _ => absurd rfl h
  | [u], _, hall => hall u (by simp)
  | u :: v :: r, _, hall => by
      rw [bigAdd_cons u (v :: r) (by simp)]
      have h1 : (bigAdd (v :: r)).map List.length = σ :=
        bigAdd_shape σ (v :: r) (by simp)
          (fun w hw => hall w (List.mem_cons_of_mem _ hw))
      have h2 : u.map List.length = σ := hall u (by simp)
      rw [listAdd_shape u (bigAdd (v :: r)) (by rw [h1, h2])]
      exact h2

lemma sum_waverecSteps (a : List Q2) (σ : List ℕ) : ∀ us : List (List (List Q2)), us ≠ [] →
    (∀ u ∈ us, u.map List.length = σ) →
    sumVecs (us.map (fun u => waverecSteps (zeroVec a) u))
      = waverecSteps (zeroVec a) (bigAdd us)
  | [], h, _ => absurd rfl h
  | [u], _, _ => rfl
  | u :: v :: r, _, hall => by
      rw [bigAdd_cons u (v :: r) (by simp), List.map_cons,
        sumVecs_cons _ _ (by simp),
        sum_waverecSteps a σ (v :: r) (by simp)
          (fun w hw => hall w (List.mem_cons_of_mem _ hw))]
      have hshape : u.map List.length = (bigAdd (v :: r)).map List.length := by
        rw [bigAdd_shape σ (v :: r) (by simp)
          (fun w hw => hall w (List.mem_cons_of_mem _ hw)), hall u (by simp)]
      calc vecAdd (waverecSteps (zeroVec a) u) (waverecSteps (zeroVec a) (bigAdd (v :: r)))
          = waverecSteps (vecAdd (zeroVec a) (zeroVec a)) (listAdd u (bigAdd (v :: r))) :=
            (waverecSteps_add u (bigAdd (v :: r)) (zeroVec a) (zeroVec a) rfl hshape).symm
        _ = waverecSteps (zeroVec a) (listAdd u (bigAdd (v :: r))) := by
            rw [vecAdd_zeroVec_self]

lemma bigAdd_map_cons (z : List Q2) (hz : vecAdd z z = z) : ∀ M : List (List (List Q2)),
    M ≠ [] → bigAdd (M.map (fun u => z :: u)) = z :: bigAdd M
  | [], h => absurd rfl h
  | [u], _ => rfl
  | u :: v :: r, _ => by
      rw [List.map_cons, bigAdd_cons _ _ (by simp),
        bigAdd_map_cons z hz (v :: r) (by simp), bigAdd_cons u (v :: r) (by simp)]
      show vecAdd z z :: listAdd u (bigAdd (v :: r)) = _
      rw [hz]

lemma bigAdd_units : ∀ ds : List (List Q2), ds ≠ [] →
    bigAdd ((List.range ds.length).map (fun i => zeroExcept ds i)) = ds
  | [], h => absurd rfl h
  | [d], _ => by
      simp [List.range_succ, zeroExcept_cons_zero, bigAdd]
  | d :: v :: r, _ => by
      have hrest : (v :: r) ≠ [] := by simp
      have hlen : (d :: v :: r).length = (v :: r).length + 1 := rfl
      rw [hlen, List.range_succ_eq_map, List.map_cons, List.map_map]
      have hcomp : (fun i => zeroExcept (d :: v :: r) i) ∘ Nat.succ
          = (fun u => zeroVec d :: u) ∘ (fun i => zeroExcept (v :: r) i) := by
        funext i
        exact zeroExcept_cons_succ d (v :: r) i
      rw [hcomp, ← List.map_map]
      have hM : ((List.range (v :: r).length).map (fun i => zeroExcept (v :: r) i)) ≠ [] := by
        simp [List.range_succ_eq_map]
      rw [bigAdd_cons _ _ (by simp), bigAdd_map_cons (zeroVec d)
        (vecAdd_zeroVec_self d) _ hM, bigAdd_units (v :: r) hrest,
        zeroExcept_cons_zero]
      show vecAdd d (zeroVec d) :: listAdd ((v :: r).map zeroVec) (v :: r) = _
      rw [vecAdd_zeroVec_right, listAdd_map_zeroVec]

/-- Summing the single-level reconstructions over all detail levels yields
the synthesis of the coefficient set with the approximation zeroed. -/
lemma sum_reconstruct (s : List Q2) (D : ℕ) (hD : 1 ≤ D) :
    sumVecs ((List.range D).map (fun i => reconstructLevel (wavedec s D) (i+1) s.length))
      = (waverec (zeroApprox (wavedec s D))).take s.length := by
  have hds : (wavedecAux s D).2.reverse.length = D := by
    simp [wavedecAux_details_length]
  have hdsne : (wavedecAux s D).2.reverse ≠ [] := by
    intro h0
    rw [h0] at hds
    simp at hds
    omega
  have hre : (fun i => reconstructLevel (wavedec s D) (i+1) s.length)
      = (fun i => (waverecSteps (zeroVec (wavedecAux s D).1)
          (zeroExcept ((wavedecAux s D).2.reverse) i)).take s.length) := by
    funext i
    rw [reconstructLevel]
    show (waverec (zeroExcept ((wavedecAux s D).1 :: (wavedecAux s D).2.reverse) (i+1))).take
        s.length = _
    rw [zeroExcept_cons_succ]
    rfl
  rw [hre]
  rw [show (fun i => (waverecSteps (zeroVec (wavedecAux s D).1)
      (zeroExcept ((wavedecAux s D).2.reverse) i)).take s.length)
      = (List.take s.length) ∘ (fun i => waverecSteps (zeroVec (wavedecAux s D).1)
        (zeroExcept ((wavedecAux s D).2.reverse) i)) from rfl]
  rw [← List.map_map, sumVecs_take]
  rw [show (fun i => waverecSteps (zeroVec (wavedecAux s D).1)
      (zeroExcept ((wavedecAux s D).2.reverse) i))
      = (fun u => waverecSteps (zeroVec (wavedecAux s D).1) u)
        ∘ (fun i => zeroExcept ((wavedecAux s D).2.reverse) i) from rfl]
  rw [← List.map_map]
  have hne : ((List.range D).map (fun i => zeroExcept ((wavedecAux s D).2.reverse) i)) ≠ [] := by
    intro h0
    have := congrArg List.length h0
    simp at this
    omega
  have hall : ∀ u ∈ (List.range D).map (fun i => zeroExcept ((wavedecAux s D).2.reverse) i),
      u.map List.length = ((wavedecAux s D).2.reverse).map List.length := by
    intro u hu
    obtain ⟨i, _, rfl⟩ := List.mem_map.mp hu
    exact zeroExcept_shape _ i
  rw [sum_waverecSteps (wavedecAux s D).1 (((wavedecAux s D).2.reverse).map List.length)
    _ hne hall]
  rw [show List.range D = List.range ((wavedecAux s D).2.reverse).length from by rw [hds]]
  rw [bigAdd_units _ hdsne]
  rfl

lemma reconstructE_ok (c : List (List Q2)) (n : ℕ) (level : ℤ)
    (h0 : 0 ≤ level) (hlt : level < (c.length : ℤ)) :
    reconstructE (some c) n level = .ok (reconstructLevel c level.toNat n) := by
  show (if -(c.length : ℤ) ≤ level ∧ level < (c.length : ℤ) then
      Except.ok (reconstructLevel c (if 0 ≤ level then level else level + c.length).toNat n)
    else Except.error WErr.indexError) = _
  rw [if_pos ⟨by omega, hlt⟩, if_pos h0]

/-! ### Wavelet theorems -/

/-- C6 counterexample: after `compute()` on the series `[1,1,1,1]` (Haar,
periodization, two levels), `reconstruct(0)` does not raise: the Python list
assignment `coeffs_copy[0] = coeffs[0]` silently re-installs the
approximation array and an approximation-only reconstruction is returned,
where the claim demands an `InvalidLevel` failure for `level = 0`. -/
theorem wavelet_level_zero_cex :
    ∃ r, reconstructE (some (wavedec (List.map Q2.ofRat [1,1,1,1]) 2)) 4 0 = .ok r :=
  ⟨_, reconstructE_ok _ 4 0 (le_refl 0) (by rw [wavedec_length]; norm_num)⟩

/-- C6 (amended): `reconstruct` raises `NotComputed` whenever it is invoked
before `compute()`; after `compute()` it performs no level validation of its
own: the Python index assignment fails (with `IndexError`, not
`InvalidLevel`) exactly when `level` is outside `[-(D+1), D]`, and in
particular `level = 0` (the approximation) and negative levels are accepted
rather than rejected. -/
theorem wavelet_reconstruct_errors (s : List Q2) (D : ℕ) (n : ℕ) (level : ℤ) :
    reconstructE none n level = .error .notComputed ∧
    (reconstructE (some (wavedec s D)) n level = .error .indexError ↔
      ¬ (-((D : ℤ) + 1) ≤ level ∧ level < (D : ℤ) + 1)) := by
  refine ⟨rfl, ?_⟩
  have hlen : (((wavedec s D).length : ℕ) : ℤ) = (D : ℤ) + 1 := by
    rw [wavedec_length]
    push_cast
    ring
  show (if -((wavedec s D).length : ℤ) ≤ level ∧ level < ((wavedec s D).length : ℤ) then
      Except.ok (reconstructLevel (wavedec s D)
        (if 0 ≤ level then level else level + (wavedec s D).length).toNat n)
    else Except.error WErr.indexError) = Except.error WErr.indexError ↔ _
  by_cases hc : -((D : ℤ) + 1) ≤ level ∧ level < (D : ℤ) + 1
  · rw [if_pos (by rw [hlen]; exact hc)]
    simp [hc]
    omega
  · rw [if_neg (by rw [hlen]; exact hc)]
    simp [hc]
    omega

/-- C9: for every series and every valid detail level `1 ≤ level ≤ D` after
`compute()`, `reconstruct(level)` succeeds and its output has exactly the
original series length (the synthesis output is at least as long as the
input and is truncated to it). -/
theorem wavelet_reconstruct_length (s : List Q2) (D : ℕ) (level : ℤ)
    (h1 : 1 ≤ level) (h2 : level ≤ (D : ℤ)) :
    ∃ r, reconstructE (some (wavedec s D)) s.length level = .ok r ∧
      r.length = s.length := by
  have hD1 : 1 ≤ D := by omega
  have hlt : level < ((wavedec s D).length : ℤ) := by
    rw [wavedec_length]
    push_cast
    omega
  refine ⟨reconstructLevel (wavedec s D) level.toNat s.length,
    reconstructE_ok _ _ _ (by omega) hlt, ?_⟩
  have hshape : (zeroExcept (wavedec s D) level.toNat).map List.length
      = (wavedec s D).map List.length := zeroExcept_shape _ _
  have hlcongr : (waverec (zeroExcept (wavedec s D) level.toNat)).length
      = (waverec (wavedec s D)).length := by
    have hco : zeroExcept (wavedec s D) level.toNat
        = zeroExcept (wavedec s D) level.toNat := rfl
    cases hze : zeroExcept (wavedec s D) level.toNat with
    | nil =>
        exfalso
        have := congrArg List.length (hze ▸ hshape)
        simp [wavedec_length] at this
    | cons za ds' =>
        rw [hze] at hshape
        show (waverecSteps za ds').length = _
        rw [show wavedec s D = (wavedecAux s D).1 :: (wavedecAux s D).2.reverse from rfl]
          at hshape ⊢
        simp only [List.map_cons, List.cons.injEq] at hshape
        exact waverecSteps_length_congr ds' _ za _ hshape.1 hshape.2
  have hfull : (waverec (wavedec s D)).length = 2 * ((s.length + 1) / 2) := by
    rw [(waverec_wavedec D s).2, if_neg (by omega)]
  rw [reconstructLevel, List.length_take, hlcongr, hfull]
  omega

lemma Q2.zero_mk : (0 : Q2) = Q2.mk 0 0 := rfl

lemma Q2.mk_add_mk (a b c d : ℚ) : Q2.mk a b + Q2.mk c d = Q2.mk (a + c) (b + d) := rfl

lemma Q2.mk_sub_mk (a b c d : ℚ) : Q2.mk a b - Q2.mk c d = Q2.mk (a - c) (b - d) := rfl

lemma Q2.mk_mul_mk (a b c d : ℚ) :
    Q2.mk a b * Q2.mk c d = Q2.mk (a * c + 2 * (b * d)) (a * d + b * c) := rfl

lemma Q2.ofRat_mk (q : ℚ) : Q2.ofRat q = Q2.mk q 0 := rfl

lemma Q2.hh_mk : Q2.hh = Q2.mk 0 (1/2) := rfl

lemma Q2.zero_add_mk (c d : ℚ) : (0 : Q2) + Q2.mk c d = Q2.mk c d := by
  refine Q2.ext2 ?_ ?_ <;> simp

lemma Q2.mk_add_zero (c d : ℚ) : Q2.mk c d + 0 = Q2.mk c d := by
  refine Q2.ext2 ?_ ?_ <;> simp

lemma Q2.zero_sub_mk (c d : ℚ) : (0 : Q2) - Q2.mk c d = Q2.mk (-c) (-d) := by
  refine Q2.ext2 ?_ ?_ <;> simp

lemma Q2.mk_sub_zero (c d : ℚ) : Q2.mk c d - 0 = Q2.mk c d := by
  refine Q2.ext2 ?_ ?_ <;> simp

/-- C9 witness: the reconstruction-length theorem evaluated at the series
`[1,1,1,1]`, two decomposition levels, level 1. -/
theorem wavelet_reconstruct_length_w :
    (1 : ℤ) ≤ 1 ∧ ((1 : ℤ) ≤ ((2 : ℕ) : ℤ)) ∧
    (∃ r, reconstructE (some (wavedec (List.map Q2.ofRat [1,1,1,1]) 2))
        (List.map Q2.ofRat [1,1,1,1]).length 1 = .ok r ∧
      r.length = (List.map Q2.ofRat [1,1,1,1]).length) :=
  ⟨le_refl 1, by norm_num,
    wavelet_reconstruct_length (List.map Q2.ofRat [1,1,1,1]) 2 1 (le_refl 1) (by norm_num)⟩

/-- C3 (amended): (1) synthesising the full, unmodified coefficient set and
trimming to the original length reproduces the series exactly; (2) the
pointwise sum of the single-level reconstructions over levels `1..D` equals
the synthesis of the coefficient set **with the approximation zeroed** — the
full reconstruction minus the approximation component — because
`reconstruct` zeroes the approximation array; it equals the full
reconstruction itself only when the approximation coefficients vanish. -/
theorem wavelet_reconstruction_roundtrip (s : List Q2) (D : ℕ) :
    (waverec (wavedec s D)).take s.length = s ∧
    (1 ≤ D →
      sumVecs ((List.range D).map (fun i => reconstructLevel (wavedec s D) (i+1) s.length))
        = (waverec (zeroApprox (wavedec s D))).take s.length) :=
  ⟨(waverec_wavedec D s).1, fun hD => sum_reconstruct s D hD⟩

/-- C3 witness: the round-trip and level-sum identities evaluated at the
series `[1,1,1,1]` with two decomposition levels. -/
theorem wavelet_reconstruction_roundtrip_w :
    ((waverec (wavedec (List.map Q2.ofRat [1,1,1,1]) 2)).take
        (List.map Q2.ofRat [1,1,1,1]).length = List.map Q2.ofRat [1,1,1,1]) ∧
    1 ≤ 2 ∧
    (sumVecs ((List.range 2).map (fun i =>
        reconstructLevel (wavedec (List.map Q2.ofRat [1,1,1,1]) 2) (i+1)
          (List.map Q2.ofRat [1,1,1,1]).length))
      = (waverec (zeroApprox (wavedec (List.map Q2.ofRat [1,1,1,1]) 2))).take
          (List.map Q2.ofRat [1,1,1,1]).length) :=
  ⟨(wavelet_reconstruction_roundtrip (List.map Q2.ofRat [1,1,1,1]) 2).1, by norm_num,
    (wavelet_reconstruction_roundtrip (List.map Q2.ofRat [1,1,1,1]) 2).2 (by norm_num)⟩

/-- C3 counterexample: on the constant series `[1, 1]` (one Haar level) the
sum of the single-level reconstructions is the zero signal `[0, 0]` — all
detail coefficients vanish and `reconstruct` zeroes the approximation — while
the full reconstruction is `[1, 1]`; the two differ exactly, not merely
beyond numerical tolerance. -/
theorem wavelet_level_sum_cex :
    sumVecs ((List.range 1).map (fun i =>
      reconstructLevel (wavedec (List.map Q2.ofRat [1,1]) 1) (i+1) 2))
      ≠ (waverec (wavedec (List.map Q2.ofRat [1,1]) 1)).take 2 := by
  have hL : sumVecs ((List.range 1).map (fun i =>
      reconstructLevel (wavedec (List.map Q2.ofRat [1,1]) 1) (i+1) 2))
      = [Q2.mk 0 0, Q2.mk 0 0] := by
    norm_num [wavedec, wavedecAux, dwtA, dwtD, dwtPairs, reconstructLevel, zeroExcept,
      zeroVec, waverec, waverecSteps, trimA, idwt1, sumVecs, vecAdd, List.range_succ,
      Q2.ofRat_mk, Q2.hh_mk, Q2.mk_add_mk, Q2.mk_sub_mk, Q2.mk_mul_mk, Q2.zero_mk,
      Q2.zero_add_mk, Q2.mk_add_zero, Q2.zero_sub_mk, Q2.mk_sub_zero]
  have hR : (waverec (wavedec (List.map Q2.ofRat [1,1]) 1)).take 2
      = [Q2.mk 1 0, Q2.mk 1 0] := by
    norm_num [wavedec, wavedecAux, dwtA, dwtD, dwtPairs, waverec, waverecSteps, trimA,
      idwt1, List.range_succ, Q2.ofRat_mk, Q2.hh_mk, Q2.mk_add_mk, Q2.mk_sub_mk,
      Q2.mk_mul_mk, Q2.zero_mk, Q2.zero_add_mk, Q2.mk_add_zero, Q2.zero_sub_mk,
      Q2.mk_sub_zero]
  rw [hL, hR]
  intro h
  have := List.head_eq_of_cons_eq h
  rw [Q2.mk.injEq] at this
  norm_num at this

/-- C1: the level labelling of `compute` contradicts the claim's (and the
code comments') finest-first indexing.  On the series `[1, 1, -1, -1]`
(Haar, periodization, two levels) the finest detail array (level 1 of the
claim, `cD_1 = [0, 0]`) carries zero energy and the coarsest (`cD_2 = [2]`)
carries energy 4; yet `compute` — whose `detail_coeffs = coeffs[1:]` list is
in pywt's coarsest-first order — returns `level_energy = [4, 0]`,
`dominant_level = 1` and pairs that slot with the period estimate
`2^1 = 2`, labelling the coarsest band as level 1 with the finest band's
period. -/
theorem wavelet_level_order_eval :
    (wavedecAux (List.map Q2.ofRat [1,1,-1,-1]) 2).2
      = [[Q2.mk 0 0, Q2.mk 0 0], [Q2.mk 2 0]] ∧
    levelEnergy (wavedec (List.map Q2.ofRat [1,1,-1,-1]) 2) = [Q2.mk 4 0, Q2.mk 0 0] ∧
    dominantLevel (wavedec (List.map Q2.ofRat [1,1,-1,-1]) 2) = some 1 ∧
    periodEstimates (wavedec (List.map Q2.ofRat [1,1,-1,-1]) 2) 1 = [2, 4] := by
  refine ⟨?_, ?_, ?_, ?_⟩ <;>
    norm_num [wavedec, wavedecAux, dwtA, dwtD, dwtPairs, levelEnergy, energy,
      dominantLevel, argmaxIdx, argmaxAux, Q2.q2lt, Q2.q2pos, periodEstimates,
      Q2.ofRat_mk, Q2.hh_mk, Q2.mk_add_mk, Q2.mk_sub_mk, Q2.mk_mul_mk, Q2.zero_mk,
      Q2.zero_add_mk, Q2.mk_add_zero, Q2.zero_sub_mk, Q2.mk_sub_zero,
      List.range_succ]
